import Mathlib

/-!
Verification of the `arrform` crate (`src/lib.rs`): a fixed-capacity,
stack-allocated string-formatting buffer for `no_std` environments.

The embedding models the `ArrForm<const BUF_SIZE: usize>` struct as a record
of a byte list (`buffer`, of length `BUF_SIZE`) and a cursor (`used`).
Bytes are modelled as `Nat`; fragments delivered by the formatting engine
(`&str` arguments of `write_str`) are byte lists.  `fmt::Result` is the
two-valued `FmtResult`.
-/

namespace Arrform

/-- `Result<(), fmt::Error>` as returned by `write_str` and `format`. -/
inductive FmtResult where
  | ok  : FmtResult
  | err : FmtResult
deriving DecidableEq, Repr

/-- The `ArrForm<BUF_SIZE>` struct: `buffer: [u8; BUF_SIZE]`, `used: usize`.
The length-`BUF_SIZE` constraint of the Rust array is carried separately by
`ArrForm.Wf`. -/
structure ArrForm (BUF_SIZE : Nat) where
  buffer : List Nat
  used : Nat
deriving DecidableEq, Repr

/-- Well-formedness of a buffer state: the backing array really has
`BUF_SIZE` cells (as the Rust type guarantees) and the cursor is inside it
(as slicing `buffer[used..]` requires). -/
def ArrForm.Wf {N : Nat} (af : ArrForm N) : Prop :=
  af.buffer.length = N ∧ af.used ≤ N

instance {N : Nat} (af : ArrForm N) : Decidable af.Wf := by
  unfold ArrForm.Wf; infer_instance

/-- `ArrForm::new`.  The Rust code leaves the array uninitialized
(`MaybeUninit::uninit().assume_init()`), so the model takes the initial
(garbage) contents as a parameter; `used` starts at 0. -/
def ArrForm.new (N : Nat) (init : List Nat) : ArrForm N :=
  { buffer := init, used := 0 }

/-- Overwrite `buffer[o .. o + s.length]` with `s`, the effect of
`copy_from_slice` into the subslice of `buffer` starting at `o`. -/
def writeAt (buffer : List Nat) (o : Nat) (s : List Nat) : List Nat :=
  buffer.take o ++ s ++ buffer.drop (o + s.length)

/-- `write_str` from `impl fmt::Write for ArrForm`:
`remaining_buf = &mut self.buffer[self.used..]`; if the fragment is longer
than `remaining_buf`, copy its first `remaining_buf.len()` bytes, advance
`used` by that much and return `Err(fmt::Error)`; otherwise copy the whole
fragment at `used`, advance `used` by its length and return `Ok(())`. -/
def ArrForm.write_str {N : Nat} (af : ArrForm N) (s : List Nat) :
    ArrForm N × FmtResult :=
  let remaining := af.buffer.length - af.used
  if s.length > remaining then
    ({ buffer := writeAt af.buffer af.used (s.take remaining),
       used := af.used + remaining }, .err)
  else
    ({ buffer := writeAt af.buffer af.used s,
       used := af.used + s.length }, .ok)

/-- `as_bytes`: the slice `&self.buffer[..self.used]`. -/
def ArrForm.as_bytes {N : Nat} (af : ArrForm N) : List Nat :=
  af.buffer.take af.used

/-- `as_str`: `from_utf8_unchecked(&self.buffer[..self.used])` — the same
bytes as `as_bytes`, reinterpreted as text without any validity check. -/
def ArrForm.as_str {N : Nat} (af : ArrForm N) : List Nat :=
  af.as_bytes

/-- The fragment-delivery loop of `core::fmt::write`: hand each rendered
fragment to `write_str` in order, stopping at the first error (as the
`fmt` machinery propagates `Err` immediately). -/
def ArrForm.writeFrags {N : Nat} (af : ArrForm N) :
    List (List Nat) → ArrForm N × FmtResult
  | [] => (af, .ok)
  | s :: rest =>
    match af.write_str s with
    | (af', .ok) => af'.writeFrags rest
    | (af', .err) => (af', .err)

/-- `ArrForm::format`: `self.used = 0; fmt::write(self, args)`.  The
formatting engine is external; it is represented by the list of rendered
fragments it would deliver. -/
def ArrForm.format {N : Nat} (af : ArrForm N) (frags : List (List Nat)) :
    ArrForm N × FmtResult :=
  ArrForm.writeFrags { af with used := 0 } frags

/-- An unrestricted sequence of direct `write_str` calls (the caller may
keep appending even after an error); only the evolving state is kept. -/
def ArrForm.writeSeq {N : Nat} (af : ArrForm N) (frags : List (List Nat)) :
    ArrForm N :=
  frags.foldl (fun a s => (a.write_str s).1) af

/-- Outcome of the `arrform!` macro: either the populated buffer, or a
panic (from `.expect("Buffer overflow")`) carrying the panic message. -/
inductive ArrformOutcome (N : Nat) where
  | value : ArrForm N → ArrformOutcome N
  | panicked : String → ArrformOutcome N
deriving DecidableEq, Repr

/-- The `arrform!` macro: build a fresh `ArrForm::<size>::new()`, run
`format`, and `expect("Buffer overflow")` — panic on `Err`, return the
buffer on `Ok`. -/
def arrform (N : Nat) (init : List Nat) (frags : List (List Nat)) :
    ArrformOutcome N :=
  let af := ArrForm.new N init
  match af.format frags with
  | (af', .ok) => .value af'
  | (_, .err) => .panicked "Buffer overflow"

/-- Total byte length of a fragment sequence. -/
def totalLen (frags : List (List Nat)) : Nat :=
  (frags.map List.length).sum

/-- UTF-8 validity of a byte sequence, per the table in RFC 3629 (the same
shape `str::from_utf8` checks): ASCII, 2-byte `C2..DF`, 3-byte with the
`E0`/`ED` overlong/surrogate restrictions, 4-byte with the `F0`/`F4`
range restrictions; every continuation byte is `80..BF`. -/
def utf8Cont (b : Nat) : Bool :=
  0x80 ≤ b && b ≤ 0xBF

/-- Number of bytes an encoded scalar value occupies, read off its leading
byte (meaningful only for bytes `utf8CharOk` accepts as leads). -/
def utf8SeqLen (b0 : Nat) : Nat :=
  if b0 ≤ 0x7F then 1
  else if b0 ≤ 0xDF then 2
  else if b0 ≤ 0xEF then 3
  else 4

/-- Whether `b0 :: tail` is exactly one well-formed encoded scalar value
(so `tail` holds precisely the continuation bytes of the lead `b0`). -/
def utf8CharOk (b0 : Nat) (tail : List Nat) : Bool :=
  if b0 ≤ 0x7F then tail.isEmpty
  else if 0xC2 ≤ b0 && b0 ≤ 0xDF then
    match tail with
    | [b1] => utf8Cont b1
    | _ => false
  else if b0 = 0xE0 then
    match tail with
    | [b1, b2] => (0xA0 ≤ b1 && b1 ≤ 0xBF) && utf8Cont b2
    | _ => false
  else if (0xE1 ≤ b0 && b0 ≤ 0xEC) || b0 = 0xEE || b0 = 0xEF then
    match tail with
    | [b1, b2] => utf8Cont b1 && utf8Cont b2
    | _ => false
  else if b0 = 0xED then
    match tail with
    | [b1, b2] => (0x80 ≤ b1 && b1 ≤ 0x9F) && utf8Cont b2
    | _ => false
  else if b0 = 0xF0 then
    match tail with
    | [b1, b2, b3] => (0x90 ≤ b1 && b1 ≤ 0xBF) && utf8Cont b2 && utf8Cont b3
    | _ => false
  else if 0xF1 ≤ b0 && b0 ≤ 0xF3 then
    match tail with
    | [b1, b2, b3] => utf8Cont b1 && utf8Cont b2 && utf8Cont b3
    | _ => false
  else if b0 = 0xF4 then
    match tail with
    | [b1, b2, b3] => (0x80 ≤ b1 && b1 ≤ 0x8F) && utf8Cont b2 && utf8Cont b3
    | _ => false
  else false

/-- Fuel-driven worker for `utf8Valid`: peel off one encoded scalar value
at a time.  `fuel ≥ l.length` makes the fuel pattern irrelevant. -/
def utf8ValidAux : Nat → List Nat → Bool
  | _, [] => true
  | 0, _ :: _ => false
  | fuel + 1, b0 :: t =>
    utf8CharOk b0 (t.take (utf8SeqLen b0 - 1)) &&
    utf8ValidAux fuel (t.drop (utf8SeqLen b0 - 1))

def utf8Valid (l : List Nat) : Bool := utf8ValidAux l.length l

/-- Concatenation of the fragments a formatting pass delivers. -/
def concatFrags : List (List Nat) → List Nat
  | [] => []
  | s :: rest => s ++ concatFrags rest

/-! ### List helpers -/

theorem take_append_of_length {α : Type} :
    ∀ (x y : List α), (x ++ y).take x.length = x
  | [], _ => rfl
  | a :: t, y => congrArg (a :: ·) (take_append_of_length t y)

theorem take_append_full {α : Type} (x y : List α) (n : Nat)
    (h : x.length = n) : (x ++ y).take n = x := by
  subst h; exact take_append_of_length x y

theorem take_append_of_le {α : Type} :
    ∀ (n : Nat) (x y : List α), n ≤ x.length → (x ++ y).take n = x.take n
  | 0, _, _, _ => rfl
  | n+1, [], _, h => absurd h (by simp)
  | n+1, a :: t, y, h =>
    congrArg (a :: ·) (take_append_of_le n t y (Nat.le_of_succ_le_succ h))

/-! ### Single-step specifications of `write_str` -/

/-- The fitting branch of `write_str`: when the fragment fits in the
remaining space, the call succeeds, the cursor advances by the fragment
length and the visible bytes gain exactly the fragment. -/
theorem write_str_fits_spec {N : Nat} (af : ArrForm N) (s : List Nat)
    (hlen : af.buffer.length = N) (hused : af.used ≤ N)
    (hfit : s.length ≤ N - af.used) :
    (af.write_str s).2 = FmtResult.ok ∧
    (af.write_str s).1.used = af.used + s.length ∧
    (af.write_str s).1.buffer.length = N ∧
    (af.write_str s).1.as_bytes = af.as_bytes ++ s := by
  have hnot : ¬ (s.length > af.buffer.length - af.used) := by omega
  have hx : (af.buffer.take af.used ++ s).length = af.used + s.length := by
    simp [List.length_take]; omega
  have heq : af.write_str s =
      ({ buffer := writeAt af.buffer af.used s,
         used := af.used + s.length }, FmtResult.ok) := by
    simp [ArrForm.write_str, hnot]
  rw [heq]
  refine ⟨rfl, rfl, ?_, ?_⟩
  · simp [writeAt, List.length_take, List.length_drop]; omega
  · show ((af.buffer.take af.used ++ s) ++
        af.buffer.drop (af.used + s.length)).take (af.used + s.length) =
      af.buffer.take af.used ++ s
    exact take_append_full _ _ _ hx

/-- The overflow branch of `write_str`: when the fragment exceeds the
remaining space, exactly the remaining-space prefix of the fragment is
copied, the cursor lands on `N` and the call fails. -/
theorem write_str_over_spec {N : Nat} (af : ArrForm N) (s : List Nat)
    (hlen : af.buffer.length = N) (hused : af.used ≤ N)
    (hover : s.length > N - af.used) :
    (af.write_str s).2 = FmtResult.err ∧
    (af.write_str s).1.used = N ∧
    (af.write_str s).1.buffer.length = N ∧
    (af.write_str s).1.as_bytes = af.as_bytes ++ s.take (N - af.used) := by
  have hcond : s.length > af.buffer.length - af.used := by omega
  have htk : (s.take (af.buffer.length - af.used)).length =
      af.buffer.length - af.used := by
    simp [List.length_take]; omega
  have hx : (af.buffer.take af.used ++
      s.take (af.buffer.length - af.used)).length = N := by
    simp [List.length_take]; omega
  have heq : af.write_str s =
      ({ buffer := writeAt af.buffer af.used
           (s.take (af.buffer.length - af.used)),
         used := af.used + (af.buffer.length - af.used) }, FmtResult.err) := by
    simp [ArrForm.write_str, hcond]
  rw [heq]
  refine ⟨rfl, by simp; omega, ?_, ?_⟩
  · simp [writeAt, List.length_take, List.length_drop]; omega
  · show ((af.buffer.take af.used ++ s.take (af.buffer.length - af.used)) ++
        af.buffer.drop
          (af.used + (s.take (af.buffer.length - af.used)).length)).take
        (af.used + (af.buffer.length - af.used)) =
      af.buffer.take af.used ++ s.take (N - af.used)
    rw [hlen] at htk ⊢
    rw [show af.used + (N - af.used) = N by omega]
    exact take_append_full _ _ _ (by rw [hlen] at hx; exact hx)

/-- `write_str` preserves well-formedness of the buffer state. -/
theorem write_str_wf {N : Nat} (af : ArrForm N) (s : List Nat)
    (hwf : af.Wf) : ((af.write_str s).1).Wf := by
  obtain ⟨hlen, hused⟩ := hwf
  by_cases h : s.length > N - af.used
  · obtain ⟨-, h1, h2, -⟩ := write_str_over_spec af s hlen hused h
    exact ⟨h2, by omega⟩
  · obtain ⟨-, h1, h2, -⟩ := write_str_fits_spec af s hlen hused (by omega)
    exact ⟨h2, by omega⟩

/-- Frame property of one `write_str` call: the already-written prefix is
untouched and the cursor never moves backwards. -/
theorem write_str_frame_spec {N : Nat} (af : ArrForm N) (s : List Nat)
    (hused : af.used ≤ af.buffer.length) :
    (af.write_str s).1.buffer.take af.used = af.buffer.take af.used ∧
    af.used ≤ (af.write_str s).1.used := by
  have key : ∀ s' : List Nat,
      (writeAt af.buffer af.used s').take af.used =
        af.buffer.take af.used := by
    intro s'
    unfold writeAt
    rw [take_append_of_le _ _ _ (by simp [List.length_take]; omega),
      take_append_of_le _ _ _ (by simp [List.length_take]; omega),
      List.take_take, Nat.min_self]
  simp only [ArrForm.write_str]
  split
  · exact ⟨key _, Nat.le_add_right _ _⟩
  · exact ⟨key _, Nat.le_add_right _ _⟩

theorem drop_append_of_le {α : Type} :
    ∀ (n : Nat) (x y : List α), n ≤ x.length → (x ++ y).drop n = x.drop n ++ y
  | 0, _, _, _ => rfl
  | n+1, [], _, h => absurd h (by simp)
  | n+1, _ :: t, y, h => drop_append_of_le n t y (Nat.le_of_succ_le_succ h)

/-! ### Sequences of appends -/

/-- Well-formedness is preserved along any sequence of `write_str` calls. -/
theorem writeSeq_wf {N : Nat} :
    ∀ (frags : List (List Nat)) (af : ArrForm N), af.Wf →
      (af.writeSeq frags).Wf
  | [], _, h => h
  | s :: rest, af, h => writeSeq_wf rest _ (write_str_wf af s h)

/-- When the fragments jointly fit in the remaining space, `writeFrags`
succeeds, advances the cursor by their total length, and appends their
concatenation to the visible bytes. -/
theorem writeFrags_fits {N : Nat} :
    ∀ (frags : List (List Nat)) (af : ArrForm N),
      af.buffer.length = N → af.used ≤ N →
      af.used + totalLen frags ≤ N →
      (af.writeFrags frags).2 = FmtResult.ok ∧
      (af.writeFrags frags).1.used = af.used + totalLen frags ∧
      (af.writeFrags frags).1.buffer.length = N ∧
      (af.writeFrags frags).1.as_bytes = af.as_bytes ++ concatFrags frags
  | [], af, h1, _, _ => by
    refine ⟨rfl, ?_, h1, ?_⟩ <;> simp [totalLen, concatFrags, ArrForm.writeFrags]
  | s :: rest, af, h1, h2, h3 => by
    have htot : totalLen (s :: rest) = s.length + totalLen rest := by
      simp [totalLen]
    rw [htot] at h3
    obtain ⟨hok, hu, hl, hb⟩ :=
      write_str_fits_spec af s h1 h2 (by omega)
    rcases hws : af.write_str s with ⟨af', r⟩
    rw [hws] at hok hu hl hb
    simp only at hok hu hl hb
    subst hok
    have hred : af.writeFrags (s :: rest) = af'.writeFrags rest := by
      simp only [ArrForm.writeFrags, hws]
    obtain ⟨h4, h5, h6, h7⟩ :=
      writeFrags_fits rest af' hl (by omega) (by omega)
    refine ⟨by rw [hred, h4], ?_, by rw [hred, h6], ?_⟩
    · rw [hred, h5, hu, htot]; omega
    · rw [hred, h7, hb, concatFrags, List.append_assoc]

/-- `write_str` behaves the same on two well-formed states agreeing on
cursor and visible bytes: equal outcomes, cursors and visible bytes. -/
theorem write_str_congr {N : Nat} (af1 af2 : ArrForm N) (s : List Nat)
    (h1 : af1.Wf) (h2 : af2.Wf) (hu : af1.used = af2.used)
    (hp : af1.as_bytes = af2.as_bytes) :
    (af1.write_str s).2 = (af2.write_str s).2 ∧
    (af1.write_str s).1.used = (af2.write_str s).1.used ∧
    (af1.write_str s).1.as_bytes = (af2.write_str s).1.as_bytes := by
  obtain ⟨hl1, hus1⟩ := h1
  obtain ⟨hl2, hus2⟩ := h2
  by_cases h : s.length > N - af1.used
  · obtain ⟨ha, hb, -, hd⟩ := write_str_over_spec af1 s hl1 hus1 h
    obtain ⟨ha', hb', -, hd'⟩ :=
      write_str_over_spec af2 s hl2 hus2 (by omega)
    exact ⟨by rw [ha, ha'], by rw [hb, hb'], by rw [hd, hd', hp, hu]⟩
  · obtain ⟨ha, hb, -, hd⟩ := write_str_fits_spec af1 s hl1 hus1 (by omega)
    obtain ⟨ha', hb', -, hd'⟩ :=
      write_str_fits_spec af2 s hl2 hus2 (by omega)
    exact ⟨by rw [ha, ha'], by rw [hb, hb', hu], by rw [hd, hd', hp]⟩

/-- `writeFrags` behaves the same on two well-formed states agreeing on
cursor and visible bytes. -/
theorem writeFrags_congr {N : Nat} :
    ∀ (frags : List (List Nat)) (af1 af2 : ArrForm N),
      af1.Wf → af2.Wf → af1.used = af2.used → af1.as_bytes = af2.as_bytes →
      (af1.writeFrags frags).2 = (af2.writeFrags frags).2 ∧
      (af1.writeFrags frags).1.used = (af2.writeFrags frags).1.used ∧
      (af1.writeFrags frags).1.as_bytes = (af2.writeFrags frags).1.as_bytes
  | [], _, _, _, _, hu, hp => ⟨rfl, hu, hp⟩
  | s :: rest, af1, af2, h1, h2, hu, hp => by
    obtain ⟨hf, hun, hpn⟩ := write_str_congr af1 af2 s h1 h2 hu hp
    have hw1 := write_str_wf af1 s h1
    have hw2 := write_str_wf af2 s h2
    rcases hws1 : af1.write_str s with ⟨af1', r1⟩
    rcases hws2 : af2.write_str s with ⟨af2', r2⟩
    rw [hws1] at hf hun hpn hw1
    rw [hws2] at hf hun hpn hw2
    simp only at hf hun hpn hw1 hw2
    subst hf
    cases r1 with
    | ok =>
      have e1 : af1.writeFrags (s :: rest) = af1'.writeFrags rest := by
        simp only [ArrForm.writeFrags, hws1]
      have e2 : af2.writeFrags (s :: rest) = af2'.writeFrags rest := by
        simp only [ArrForm.writeFrags, hws2]
      rw [e1, e2]
      exact writeFrags_congr rest af1' af2' hw1 hw2 hun hpn
    | err =>
      have e1 : af1.writeFrags (s :: rest) = (af1', FmtResult.err) := by
        simp only [ArrForm.writeFrags, hws1]
      have e2 : af2.writeFrags (s :: rest) = (af2', FmtResult.err) := by
        simp only [ArrForm.writeFrags, hws2]
      rw [e1, e2]
      exact ⟨rfl, hun, hpn⟩

/-! ### UTF-8 validity -/

/-- The worker is insensitive to the exact fuel once it covers the list. -/
theorem utf8ValidAux_fuel :
    ∀ (f f' : Nat) (l : List Nat), l.length ≤ f → l.length ≤ f' →
      utf8ValidAux f l = utf8ValidAux f' l
  | _, _, [], _, _ => by simp only [utf8ValidAux]
  | 0, _, _ :: _, h, _ => by simp only [List.length_cons] at h; omega
  | _+1, 0, _ :: _, _, h' => by simp only [List.length_cons] at h'; omega
  | f+1, f'+1, b0 :: t, h, h' => by
    simp only [List.length_cons] at h h'
    simp only [utf8ValidAux]
    congr 1
    exact utf8ValidAux_fuel f f' (t.drop (utf8SeqLen b0 - 1))
      (by simp only [List.length_drop]; omega)
      (by simp only [List.length_drop]; omega)

set_option maxHeartbeats 3200000 in
/-- A well-formed encoded scalar value has exactly the number of
continuation bytes its leading byte announces. -/
theorem utf8CharOk_length {b0 : Nat} {tail : List Nat}
    (h : utf8CharOk b0 tail = true) : tail.length = utf8SeqLen b0 - 1 := by
  unfold utf8CharOk at h
  rcases tail with _ | ⟨b1, _ | ⟨b2, _ | ⟨b3, _ | ⟨b4, t⟩⟩⟩⟩ <;>
    split_ifs at h with h1 h2 h3 h4 h5 h6 h7 h8 <;>
    first
      | exact absurd h Bool.false_ne_true
      | (simp only [Bool.and_eq_true, Bool.or_eq_true, decide_eq_true_eq,
          List.length_nil, List.length_cons] at *
         unfold utf8SeqLen
         split_ifs <;> omega)

/-- Concatenating two valid byte sequences yields a valid sequence
(worker version, with enough fuel for the concatenation). -/
theorem utf8ValidAux_append :
    ∀ (fuel : Nat) (a b : List Nat), a.length + b.length ≤ fuel →
      utf8ValidAux fuel a = true → utf8ValidAux fuel b = true →
      utf8ValidAux fuel (a ++ b) = true
  | _, [], _, _, _, hb => hb
  | 0, _ :: _, _, h, _, _ => by simp only [List.length_cons] at h; omega
  | fuel+1, b0 :: t, b, h, ha, hb => by
    simp only [List.length_cons] at h
    simp only [utf8ValidAux, Bool.and_eq_true] at ha
    obtain ⟨hchar, hrest⟩ := ha
    have hklen : (t.take (utf8SeqLen b0 - 1)).length = utf8SeqLen b0 - 1 :=
      utf8CharOk_length hchar
    rw [List.length_take] at hklen
    have hk : utf8SeqLen b0 - 1 ≤ t.length := by omega
    have hbfuel : utf8ValidAux fuel b = true := by
      rw [utf8ValidAux_fuel fuel (fuel+1) b (by omega) (by omega)]
      exact hb
    simp only [List.cons_append, utf8ValidAux, List.append_eq,
      Bool.and_eq_true]
    refine ⟨?_, ?_⟩
    · rw [take_append_of_le _ _ _ hk]
      exact hchar
    · rw [drop_append_of_le _ _ _ hk]
      exact utf8ValidAux_append fuel (t.drop (utf8SeqLen b0 - 1)) b
        (by simp only [List.length_drop]; omega) hrest hbfuel

/-- Concatenating two valid UTF-8 byte sequences yields a valid one. -/
theorem utf8Valid_append (a b : List Nat) (ha : utf8Valid a = true)
    (hb : utf8Valid b = true) : utf8Valid (a ++ b) = true := by
  unfold utf8Valid at *
  have hfa : utf8ValidAux (a.length + b.length) a = true := by
    rw [utf8ValidAux_fuel (a.length + b.length) a.length a (by omega) le_rfl]
    exact ha
  have hfb : utf8ValidAux (a.length + b.length) b = true := by
    rw [utf8ValidAux_fuel (a.length + b.length) b.length b (by omega) le_rfl]
    exact hb
  rw [List.length_append]
  exact utf8ValidAux_append (a.length + b.length) a b le_rfl hfa hfb

/-! ### Claims -/

/-- C1: for every buffer of capacity `N` and every sequence of `write_str`
calls with arbitrary fragments, the used-length cursor never exceeds `N`,
even when the cumulative byte length of the fragments exceeds `N`. -/
theorem claim_C1_capacity_invariant {N : Nat} (af : ArrForm N)
    (frags : List (List Nat)) (hwf : af.Wf) :
    (af.writeSeq frags).used ≤ N :=
  (writeSeq_wf frags af hwf).2

/-- Witness for C1: capacity 2, fragments of cumulative length 3. -/
theorem claim_C1_capacity_invariant_witness :
    ((ArrForm.new 2 [7, 7]).writeSeq [[1, 2], [3]]).used ≤ 2 :=
  claim_C1_capacity_invariant (ArrForm.new 2 [7, 7]) [[1, 2], [3]] (by decide)

/-- C2: appending a fragment strictly longer than the remaining space
`N - used` copies exactly the first `N - used` bytes of the fragment,
sets the cursor to `N`, returns the overflow error, and a subsequent
`as_bytes` returns exactly those `N` bytes. -/
theorem claim_C2_overflow_truncation {N : Nat} (af : ArrForm N)
    (s : List Nat) (hwf : af.Wf) (hover : s.length > N - af.used) :
    (af.write_str s).2 = FmtResult.err ∧
    (af.write_str s).1.used = N ∧
    (af.write_str s).1.as_bytes = af.as_bytes ++ s.take (N - af.used) ∧
    (af.write_str s).1.as_bytes.length = N := by
  obtain ⟨h1, h2⟩ := hwf
  obtain ⟨ha, hb, -, hd⟩ := write_str_over_spec af s h1 h2 hover
  refine ⟨ha, hb, hd, ?_⟩
  rw [hd]
  simp only [ArrForm.as_bytes, List.length_append, List.length_take]
  omega

/-- Witness for C2: spec Scenario B, capacity 10 against a 15-byte
fragment `"abcdefghijklmno"`. -/
theorem claim_C2_overflow_truncation_witness :
    ([97, 98, 99, 100, 101, 102, 103, 104, 105, 106, 107, 108, 109, 110,
        111] : List Nat).length >
      10 - (ArrForm.new 10 (List.replicate 10 0)).used ∧
    ((ArrForm.new 10 (List.replicate 10 0)).write_str
        [97, 98, 99, 100, 101, 102, 103, 104, 105, 106, 107, 108, 109, 110,
          111]).1.as_bytes = [97, 98, 99, 100, 101, 102, 103, 104, 105, 106] :=
  ⟨by decide,
    by
      have h := claim_C2_overflow_truncation
        (ArrForm.new 10 (List.replicate 10 0))
        [97, 98, 99, 100, 101, 102, 103, 104, 105, 106, 107, 108, 109, 110,
          111] (by decide) (by decide)
      rw [h.2.2.1]; decide⟩

/-- C3: appending a fragment of byte length at most the remaining space
`N - used` copies the entire fragment at offset `used`, advances the
cursor by the fragment length, and succeeds. -/
theorem claim_C3_fitting_append {N : Nat} (af : ArrForm N)
    (s : List Nat) (hwf : af.Wf) (hfit : s.length ≤ N - af.used) :
    (af.write_str s).2 = FmtResult.ok ∧
    (af.write_str s).1.used = af.used + s.length ∧
    (af.write_str s).1.as_bytes = af.as_bytes ++ s := by
  obtain ⟨h1, h2⟩ := hwf
  obtain ⟨ha, hb, -, hd⟩ := write_str_fits_spec af s h1 h2 hfit
  exact ⟨ha, hb, hd⟩

/-- Witness for C3: a 2-byte fragment into a capacity-4 buffer holding
one byte already. -/
theorem claim_C3_fitting_append_witness :
    ([8, 9] : List Nat).length ≤
      4 - (⟨[5, 0, 0, 0], 1⟩ : ArrForm 4).used ∧
    ((⟨[5, 0, 0, 0], 1⟩ : ArrForm 4).write_str [8, 9]).2 = FmtResult.ok ∧
    ((⟨[5, 0, 0, 0], 1⟩ : ArrForm 4).write_str [8, 9]).1.used = 1 + 2 ∧
    ((⟨[5, 0, 0, 0], 1⟩ : ArrForm 4).write_str [8, 9]).1.as_bytes =
      (⟨[5, 0, 0, 0], 1⟩ : ArrForm 4).as_bytes ++ [8, 9] :=
  ⟨by decide, claim_C3_fitting_append (⟨[5, 0, 0, 0], 1⟩ : ArrForm 4) [8, 9]
    (by decide) (by decide)⟩

/-- C4: `write_str` returns the error value exactly when the fragment's
byte length exceeds the remaining capacity `N - used`; the operation is a
total function into `FmtResult` (err is the only failure value, returned,
never a crash). -/
theorem claim_C4_err_iff_overflow {N : Nat} (af : ArrForm N)
    (s : List Nat) (hwf : af.Wf) :
    (af.write_str s).2 = FmtResult.err ↔ s.length > N - af.used := by
  obtain ⟨h1, h2⟩ := hwf
  by_cases h : s.length > N - af.used
  · simp only [h, iff_true]
    exact (write_str_over_spec af s h1 h2 h).1
  · have hok := (write_str_fits_spec af s h1 h2 (by omega)).1
    rw [hok]
    simp only [h, iff_false]
    intro hbad
    cases hbad

/-- Witness for C4: both directions at capacity 1 — an oversized and a
fitting fragment. -/
theorem claim_C4_err_iff_overflow_witness :
    (((ArrForm.new 1 [0]).write_str [1, 2]).2 = FmtResult.err ↔
      ([1, 2] : List Nat).length > 1 - (ArrForm.new 1 [0]).used) ∧
    (((ArrForm.new 1 [0]).write_str [1]).2 = FmtResult.err ↔
      ([1] : List Nat).length > 1 - (ArrForm.new 1 [0]).used) :=
  ⟨claim_C4_err_iff_overflow (ArrForm.new 1 [0]) [1, 2] (by decide),
    claim_C4_err_iff_overflow (ArrForm.new 1 [0]) [1] (by decide)⟩

/-- C5 counterexample: the claim that `storage[0..length]` is always valid
UTF-8, even immediately after an overflowing partial append, is false: a
capacity-1 buffer receiving the valid 2-byte fragment `"é" = [0xC3, 0xA9]`
is left holding the lone lead byte `[0xC3]`, which is not valid UTF-8. -/
theorem claim_C5_counterexample :
    utf8Valid ((ArrForm.new 1 [0]).as_bytes) = true ∧
    utf8Valid [0xC3, 0xA9] = true ∧
    ((ArrForm.new 1 [0]).write_str [0xC3, 0xA9]).2 = FmtResult.err ∧
    utf8Valid (((ArrForm.new 1 [0]).write_str [0xC3, 0xA9]).1.as_bytes) =
      false := by
  decide

/-- C5 (amended): as long as every append succeeds (no overflow), a buffer
holding valid UTF-8 that receives a valid UTF-8 fragment still holds valid
UTF-8; an overflowing append may instead split a multi-byte character. -/
theorem claim_C5_amended_utf8 {N : Nat} (af : ArrForm N) (s : List Nat)
    (hwf : af.Wf) (hbuf : utf8Valid af.as_bytes = true)
    (hs : utf8Valid s = true)
    (hok : (af.write_str s).2 = FmtResult.ok) :
    utf8Valid ((af.write_str s).1.as_bytes) = true := by
  obtain ⟨h1, h2⟩ := hwf
  by_cases h : s.length > N - af.used
  · rw [(write_str_over_spec af s h1 h2 h).1] at hok
    cases hok
  · rw [(write_str_fits_spec af s h1 h2 (by omega)).2.2.2]
    exact utf8Valid_append _ _ hbuf hs

/-- Witness for C5 (amended): the same 2-byte character appended to a
buffer that has room for it. -/
theorem claim_C5_amended_utf8_witness :
    utf8Valid (((ArrForm.new 2 [0, 0]).write_str [0xC3, 0xA9]).1.as_bytes) =
      true :=
  claim_C5_amended_utf8 (ArrForm.new 2 [0, 0]) [0xC3, 0xA9]
    (by decide) (by decide) (by decide) (by decide)

/-- C6: `format` resets the cursor to 0 before appending, so two
formatting passes over the same fragment list agree on outcome, cursor and
visible bytes regardless of the prior states of the two buffers. -/
theorem claim_C6_reuse_independent {N : Nat} (af1 af2 : ArrForm N)
    (frags : List (List Nat)) (h1 : af1.buffer.length = N)
    (h2 : af2.buffer.length = N) :
    af1.format frags =
      ArrForm.writeFrags { buffer := af1.buffer, used := 0 } frags ∧
    (af1.format frags).2 = (af2.format frags).2 ∧
    (af1.format frags).1.used = (af2.format frags).1.used ∧
    (af1.format frags).1.as_bytes = (af2.format frags).1.as_bytes := by
  refine ⟨rfl, ?_⟩
  unfold ArrForm.format
  exact writeFrags_congr frags _ _ ⟨h1, Nat.zero_le N⟩ ⟨h2, Nat.zero_le N⟩
    rfl rfl

/-- Witness for C6: a full buffer from a prior pass and a fresh buffer
format the same fragments identically. -/
theorem claim_C6_reuse_independent_witness :
    ((⟨[9, 9, 9], 3⟩ : ArrForm 3).format [[5], [6]]).1.as_bytes =
      ((⟨[0, 0, 0], 1⟩ : ArrForm 3).format [[5], [6]]).1.as_bytes :=
  (claim_C6_reuse_independent (⟨[9, 9, 9], 3⟩ : ArrForm 3)
    (⟨[0, 0, 0], 1⟩ : ArrForm 3) [[5], [6]] (by decide) (by decide)).2.2.2

/-- C7: a fragment sequence whose total byte length is exactly `N`,
appended in order into an empty buffer, succeeds (no overflow is
signaled) and leaves the cursor at `N`. -/
theorem claim_C7_exact_fit {N : Nat} (af : ArrForm N)
    (frags : List (List Nat)) (hwf : af.Wf) (h0 : af.used = 0)
    (htot : totalLen frags = N) :
    (af.writeFrags frags).2 = FmtResult.ok ∧
    (af.writeFrags frags).1.used = N := by
  obtain ⟨h1, h2⟩ := hwf
  obtain ⟨ha, hb, -, -⟩ := writeFrags_fits frags af h1 h2 (by omega)
  exact ⟨ha, by omega⟩

/-- Witness for C7: fragments of lengths 1 and 2 exactly filling a
capacity-3 buffer. -/
theorem claim_C7_exact_fit_witness :
    totalLen [[1], [2, 3]] = 3 ∧
    ((ArrForm.new 3 [0, 0, 0]).writeFrags [[1], [2, 3]]).2 = FmtResult.ok ∧
    ((ArrForm.new 3 [0, 0, 0]).writeFrags [[1], [2, 3]]).1.used = 3 :=
  ⟨by decide, claim_C7_exact_fit (ArrForm.new 3 [0, 0, 0]) [[1], [2, 3]]
    (by decide) (by decide) (by decide)⟩

/-- C8: the `arrform!` macro panics with the diagnostic
`"Buffer overflow"` whenever the formatting pass reports overflow, and on
success returns the populated buffer. -/
theorem claim_C8_macro_fatal {N : Nat} (init : List Nat)
    (frags : List (List Nat)) :
    (((ArrForm.new N init).format frags).2 = FmtResult.err →
      arrform N init frags = ArrformOutcome.panicked "Buffer overflow") ∧
    (((ArrForm.new N init).format frags).2 = FmtResult.ok →
      arrform N init frags =
        ArrformOutcome.value ((ArrForm.new N init).format frags).1) := by
  constructor
  · intro h
    simp only [arrform]
    rcases hf : (ArrForm.new N init).format frags with ⟨af', r⟩
    rw [hf] at h
    simp only at h
    subst h
    rfl
  · intro h
    simp only [arrform]
    rcases hf : (ArrForm.new N init).format frags with ⟨af', r⟩
    rw [hf] at h
    simp only at h
    subst h
    rfl

/-- Witness for C8: an undersized capacity panics, a sufficient one
returns the populated buffer. -/
theorem claim_C8_macro_fatal_witness :
    arrform 1 [0] [[1, 2]] = ArrformOutcome.panicked "Buffer overflow" ∧
    arrform 2 [0, 0] [[1]] = ArrformOutcome.value ⟨[1, 0], 1⟩ :=
  ⟨(@claim_C8_macro_fatal 1 [0] [[1, 2]]).1 (by decide),
    by
      have h := (@claim_C8_macro_fatal 2 [0, 0] [[1]]).2 (by decide)
      rw [h]; rfl⟩

/-- C9: `write_str` — succeeding or overflowing — leaves the bytes below
the pre-call cursor unchanged and never decreases the cursor. -/
theorem claim_C9_frame {N : Nat} (af : ArrForm N) (s : List Nat)
    (hwf : af.Wf) :
    (af.write_str s).1.buffer.take af.used = af.buffer.take af.used ∧
    af.used ≤ (af.write_str s).1.used := by
  obtain ⟨h1, h2⟩ := hwf
  exact write_str_frame_spec af s (by omega)

/-- Witness for C9: an overflowing append on a half-filled buffer keeps
its old prefix. -/
theorem claim_C9_frame_witness :
    ((⟨[4, 5, 0, 0], 2⟩ : ArrForm 4).write_str [6, 7, 8]).1.buffer.take 2 =
      [4, 5] ∧
    (2 : Nat) ≤ ((⟨[4, 5, 0, 0], 2⟩ : ArrForm 4).write_str [6, 7, 8]).1.used :=
  claim_C9_frame (⟨[4, 5, 0, 0], 2⟩ : ArrForm 4) [6, 7, 8] (by decide)

/-- C10: appending the empty fragment always succeeds and leaves the state
— cursor and storage — unchanged, for every buffer state including a full
one. -/
theorem claim_C10_empty_append {N : Nat} (af : ArrForm N) :
    af.write_str [] = (af, FmtResult.ok) := by
  simp [ArrForm.write_str, writeAt]

end Arrform
